import Mathlib

/-!
Verification of the core of the Scramblr image-filename randomizer
(`src/Scramblr.py`).  The embedding models `RandomizerWorker.run`
(two-phase rename with progress / finished / error signals),
`ImageRandomizer.get_image_files` (directory filtering) and the prefix
defaulting in `ImageRandomizer.process_folder`.

Modelling conventions:
* The in-place `random.shuffle` is external nondeterminism: `run` receives
  the already-permuted list of filenames, matching the spec's
  "permuted processing order".
* `uuid.uuid4()` tokens are an input stream `tokens : Nat → String`.
* `os.rename` failures (permission, disk, vanished file, ...) are an
  oracle `fail1, fail2 : Nat → Option String`, one per phase, giving the
  exception text at the i-th rename of that phase; in addition a rename
  raises when the source name is not present in the directory.  A rename
  that succeeds follows POSIX semantics on the name set: the source name
  disappears and the target name is (re)added.
* The directory is the finite list of names it contains.
* Wall-clock times (`time.time()`, the `duration` payload of `finished`)
  are real time and are not modelled; the `finished` signal carries the
  mapping only.
* Python's `int((i+1)/total_files * 50)` is IEEE-754 binary64
  arithmetic: a correctly rounded true division, a correctly rounded
  multiplication by 50, then truncation toward zero.  It is embedded
  exactly: `pyProgress` performs both round-to-nearest-ties-to-even
  roundings to a 53-bit significand in exact integer arithmetic
  (`fSig p q` is the significand of the rounding of `p / q`, with
  unit-in-the-last-place `2 ^ (-fScale p q)`).  Double rounding matters:
  `pyProgress 29 50 = 28` (the interpreter computes
  `29/50*50 = 28.999999999999996`) where exact arithmetic would give 29.
  The embedding agrees with binary64 on every ratio the program
  evaluates (the loop indices never exceed the file count, and
  significands stay in normal range).
* Python's `str.lower` on the extension is embedded as ASCII
  `Char.toLower`, which agrees with it on every string whose lowering can
  land in the ASCII supported-extension set.
-/

namespace Scramblr

/-- The three Qt signals of `RandomizerWorker` (src/Scramblr.py:128-130):
`progress_update (int, str)`, `finished (dict, float)` — duration payload
not modelled — and `error (str)`. -/
inductive Event where
  | progress (pct : Nat) (msg : String)
  | finished (result : List (String × String))
  | error (msg : String)
deriving DecidableEq

/-- Decimal digit character, used to embed Python's decimal formatting. -/
def digitChar : Nat → Char
  | 0 => '0'
  | 1 => '1'
  | 2 => '2'
  | 3 => '3'
  | 4 => '4'
  | 5 => '5'
  | 6 => '6'
  | 7 => '7'
  | 8 => '8'
  | _ => '9'

/-- Fuel-indexed decimal digits of a natural number, most significant
first. -/
def natDigitsAux : Nat → Nat → List Char
  | 0, _ => []
  | fuel + 1, n =>
      if n < 10 then [digitChar n]
      else natDigitsAux fuel (n / 10) ++ [digitChar (n % 10)]

/-- Decimal digits of `n`, most significant first (`str(n)` in Python). -/
def natDigits (n : Nat) : List Char := natDigitsAux (n + 1) n

/-- Python's `str(n)` for a natural number. -/
def natStr (n : Nat) : String := String.mk (natDigits n)

/-- Python's `f"\x7bi:03d\x7d"`: decimal digits of `i` left-padded with
zeros to width 3 (src/Scramblr.py:178). -/
def pad3 (n : Nat) : List Char :=
  List.replicate (3 - (natDigits n).length) '0' ++ natDigits n

/-- String form of `pad3`. -/
def pad3Str (n : Nat) : String := String.mk (pad3 n)

/-- Python's `os.path.splitext` on a bare filename (no path separators):
split at the last dot, except that a dot with only dots before it starts
no extension (so `".bashrc"` has no extension). -/
def splitextData (s : List Char) : List Char × List Char :=
  match s.reverse.span (fun c => c != '.') with
  | (_, []) => (s, [])
  | (bRev, _ :: aRev) =>
      if aRev.reverse.any (fun c => c != '.') then
        (aRev.reverse, '.' :: bRev.reverse)
      else (s, [])

/-- Extension of a filename as a character list:
`os.path.splitext(f)[1]`. -/
def extData (f : String) : List Char := (splitextData f.data).2

/-- Extension of a filename: `os.path.splitext(f)[1]`. -/
def extStr (f : String) : String := String.mk (extData f)

/-- Lower-cased extension: `os.path.splitext(f)[1].lower()`
(src/Scramblr.py:372). -/
def extLower (f : String) : String := String.map Char.toLower (extStr f)

/-- Temporary quarantine name of phase 1
(src/Scramblr.py:164): `f"temp_\x7buuid\x7d\x7bext\x7d"`. -/
def tempNameOf (token f : String) : String :=
  ("temp_") ++ token ++ extStr f

/-- Final name of phase 2 (src/Scramblr.py:178):
`f"\x7bnew_prefix\x7d\x7bi:03d\x7d\x7bext\x7d"`. -/
def newNameOf (pre : String) (i : Nat) (f : String) : String :=
  pre ++ pad3Str i ++ extStr f

/-- Effect of a successful `os.rename(old, new)` on the set of names in
the directory (POSIX: `old` disappears, `new` is (re)created). -/
def renameFS (fs : List String) (old new : String) : List String :=
  ((fs.erase old).erase new).concat new

/-- Replay a list of committed renames over a directory. -/
def applyRenames (fs : List String) (rs : List (String × String)) : List String :=
  rs.foldl (fun s p => renameFS s p.1 p.2) fs

/-- Round `p / q` to the nearest integer, ties to even (IEEE round to
nearest), for `q > 0`. -/
def rhe (p q : Nat) : Nat :=
  if 2 * (p % q) < q then p / q
  else if q < 2 * (p % q) then p / q + 1
  else if (p / q) % 2 = 0 then p / q else p / q + 1

/-- Fuel-indexed search for the least `u` with `t ≤ p * 2 ^ u`. -/
def leastScaleAux : Nat → Nat → Nat → Nat
  | 0, _, _ => 0
  | fuel + 1, p, t => if t ≤ p then 0 else leastScaleAux fuel (2 * p) t + 1

/-- Least `u` with `t ≤ p * 2 ^ u` (correct for `p ≥ 1`; fuel `t`
suffices because `t ≤ 2 ^ t`). -/
def leastScale (p t : Nat) : Nat := leastScaleAux t p t

/-- Binary64 rounding of the ratio `p / q`, scale part: the unit in the
last place of the rounded value is `2 ^ (-fScale p q)`. -/
def fScale (p q : Nat) : Nat := leastScale p (q * 2 ^ 52)

/-- Binary64 rounding of the ratio `p / q`, significand part: the
rounded value is `fSig p q / 2 ^ fScale p q`, with a 53-bit significand
whenever `q ≤ p * 2 ^ 52` fails, i.e. on every subunit ratio. -/
def fSig (p q : Nat) : Nat := rhe (p * 2 ^ fScale p q) q

/-- Scale of the second rounding of `int(a / b * 50)`: the product by 50
is itself a binary64 rounding of the exact dyadic `50 * fSig a b / 2 ^
fScale a b`. -/
def sScale (a b : Nat) : Nat := fScale (50 * fSig a b) (2 ^ fScale a b)

/-- Significand of the second rounding of `int(a / b * 50)`. -/
def sSig (a b : Nat) : Nat := fSig (50 * fSig a b) (2 ^ fScale a b)

/-- Python's `int(a / b * 50)` in IEEE-754 binary64: round `a / b` to
nearest (ties to even), multiply by 50 and round again, truncate toward
zero.  Total function; `0` when a loop could not have evaluated it
(`a = 0` never occurs for the 1-based indices, `b = 0` only with an
empty loop). -/
def pyProgress (a b : Nat) : Nat :=
  if a = 0 ∨ b = 0 then 0 else sSig a b / 2 ^ sScale a b

deriving instance DecidableEq for Except

/-- Result of one phase of `RandomizerWorker.run`: the progress events it
emitted, the directory contents after it, the renames it committed (in
order), and either the mapping it accumulated or the text of the
exception that aborted it. -/
structure PhaseOut where
  evs : List Event
  fs : List String
  renames : List (String × String)
  res : Except String (List (String × String))
deriving DecidableEq

/-- Phase 1 of `RandomizerWorker.run` (src/Scramblr.py:162-169): rename
each file, in order, to its quarantine name, recording
original → temporary and emitting one progress event per file.  `i` is
the 0-based loop index of `enumerate`, `total` the file count. -/
def phase1Go (tokens : Nat → String) (fail1 : Nat → Option String)
    (total : Nat) :
    List String → Nat → List String → List (String × String) → PhaseOut
  | [], _, fs, acc => ⟨[], fs, [], Except.ok acc⟩
  | f :: rest, i, fs, acc =>
      let tname := tempNameOf (tokens i) f
      match fail1 i with
      | some msg => ⟨[], fs, [], Except.error msg⟩
      | none =>
          if f ∈ fs then
            let out := phase1Go tokens fail1 total rest (i + 1)
              (renameFS fs f tname) (acc.concat (f, tname))
            ⟨Event.progress (pyProgress (i + 1) total)
                (("Phase 1/2: Preparing file ") ++ natStr (i + 1) ++ ("/")
                  ++ natStr total) :: out.evs,
              out.fs, (f, tname) :: out.renames, out.res⟩
          else ⟨[], fs, [], Except.error (("missing file ") ++ f)⟩

/-- Phase 2 of `RandomizerWorker.run` (src/Scramblr.py:173-183): rename
each quarantined file, in the order phase 1 recorded it, to
`prefix + zero-padded index + original extension`, recording
original → final and emitting one progress event per file.  `i` is the
1-based loop index of `enumerate(..., 1)`. -/
def phase2Go (fail2 : Nat → Option String) (total : Nat) (pre : String) :
    List (String × String) → Nat → List String → List (String × String) →
      PhaseOut
  | [], _, fs, acc => ⟨[], fs, [], Except.ok acc⟩
  | (orig, tmp) :: rest, i, fs, acc =>
      let nname := newNameOf pre i orig
      match fail2 i with
      | some msg => ⟨[], fs, [], Except.error msg⟩
      | none =>
          if tmp ∈ fs then
            let out := phase2Go fail2 total pre rest (i + 1)
              (renameFS fs tmp nname) (acc.concat (orig, nname))
            ⟨Event.progress (50 + pyProgress i total)
                (("Phase 2/2: Renaming file ") ++ natStr i ++ ("/")
                  ++ natStr total) :: out.evs,
              out.fs, (tmp, nname) :: out.renames, out.res⟩
          else ⟨[], fs, [], Except.error (("missing file ") ++ tmp)⟩

/-- Everything observable about one invocation of
`RandomizerWorker.run`: the emitted events in order, the directory
contents afterwards, the committed renames in order, and the payload of
the terminal signal. -/
structure RunOut where
  events : List Event
  fs : List String
  renames : List (String × String)
  result : Except String (List (String × String))
deriving DecidableEq

/-- Status text emitted before phase 1 (src/Scramblr.py:161). -/
def msgPhase1 : String := "Phase 1/2: Preparing files..."

/-- Status text emitted before phase 2 (src/Scramblr.py:172). -/
def msgPhase2 : String := "Phase 2/2: Finalizing names..."

/-- `RandomizerWorker.run` (src/Scramblr.py:146-189).  `files` is the
list after `random.shuffle`; the `try`/`except` is modelled by the
`Except` results of the phases: the first raising rename aborts the run
and its exception text becomes the single `error` signal. -/
def run (files : List String) (pre : String) (tokens : Nat → String)
    (fail1 fail2 : Nat → Option String) (fs : List String) : RunOut :=
  let total := files.length
  let p1 := phase1Go tokens fail1 total files 0 fs []
  match p1.res with
  | Except.error m =>
      ⟨Event.progress 0 msgPhase1 :: (p1.evs ++ [Event.error m]),
        p1.fs, p1.renames, Except.error m⟩
  | Except.ok temps =>
      let p2 := phase2Go fail2 total pre temps 1 p1.fs []
      match p2.res with
      | Except.error m =>
          ⟨Event.progress 0 msgPhase1 ::
              (p1.evs ++ Event.progress 50 msgPhase2 ::
                (p2.evs ++ [Event.error m])),
            p2.fs, p1.renames ++ p2.renames, Except.error m⟩
      | Except.ok finals =>
          ⟨Event.progress 0 msgPhase1 ::
              (p1.evs ++ Event.progress 50 msgPhase2 ::
                (p2.evs ++ [Event.finished finals])),
            p2.fs, p1.renames ++ p2.renames, Except.ok finals⟩

/-- The temporary-name mapping phase 1 builds when every rename
succeeds, starting at loop index `i`. -/
def tempNamesFrom (tokens : Nat → String) :
    Nat → List String → List (String × String)
  | _, [] => []
  | i, f :: rest => (f, tempNameOf (tokens i) f) ::
      tempNamesFrom tokens (i + 1) rest

/-- The final-name mapping phase 2 builds when every rename succeeds,
keyed by the original filenames, starting at 1-based index `i`. -/
def finalNamesOf (pre : String) : Nat → List String → List (String × String)
  | _, [] => []
  | i, f :: rest => (f, newNameOf pre i f) :: finalNamesOf pre (i + 1) rest

/-- Like `finalNamesOf` but consuming the (original, temporary) pairs of
the phase-1 mapping. -/
def finalNamesPairs (pre : String) :
    Nat → List (String × String) → List (String × String)
  | _, [] => []
  | i, p :: rest => (p.1, newNameOf pre i p.1) ::
      finalNamesPairs pre (i + 1) rest

/-- Numeric value of a decimal digit character. -/
def charDigitVal (c : Char) : Nat := c.toNat - 48

/-- Value of a most-significant-first decimal digit string. -/
def digitsVal (l : List Char) : Nat :=
  l.foldl (fun a c => a * 10 + charDigitVal c) 0

/-- Recover the 1-based sequence number from a final filename produced
with prefix `pre`: drop the prefix, read the leading digits. -/
def decodeIdx (pre : String) (s : String) : Nat :=
  digitsVal ((s.data.drop pre.length).takeWhile (fun c => c.isDigit))

/-- The percentage payloads of the progress events of a trace, in
order. -/
def progressVals (evs : List Event) : List Nat :=
  evs.filterMap (fun e =>
    match e with
    | Event.progress p _ => some p
    | _ => none)

/-- Whether an event is terminal (a `finished` or `error` signal). -/
def isTerminal : Event → Bool
  | Event.progress _ _ => false
  | Event.finished _ => true
  | Event.error _ => true

/-- The terminal event a run outcome produces. -/
def terminalOf : Except String (List (String × String)) → Event
  | Except.ok r => Event.finished r
  | Except.error s => Event.error s

/-- `l` is nondecreasing and bounded below by `b`. -/
def chainGE : Nat → List Nat → Prop
  | _, [] => True
  | b, v :: rest => b ≤ v ∧ chainGE v rest

/-- Python's `a or b` for strings: `b` when `a` is falsy (empty),
otherwise `a` (src/Scramblr.py:403). -/
def pyOrDefault (a b : String) : String := if a = "" then b else a

/-- The prefix actually handed to the worker:
`self.prefix_edit.text() or "image_"` (src/Scramblr.py:403). -/
def choosePre (t : String) : String := pyOrDefault t ("image_")

/-- Supported image extensions (src/Scramblr.py:368). -/
def imageExts : List String :=
  [".jpg", ".jpeg", ".png", ".gif", ".bmp", ".tiff", ".webp"]

/-- `ImageRandomizer.get_image_files` (src/Scramblr.py:358-373) over the
directory listing `entries`, with `os.path.isfile` as the oracle
`isFile`. -/
def get_image_files (entries : List String) (isFile : String → Bool) :
    List String :=
  entries.filter (fun f => isFile f && decide (extLower f ∈ imageExts))

/-- Whether a name has the quarantine form of phase 1. -/
def hasTempForm (s : String) : Bool :=
  List.isPrefixOf ("temp_").data s.data

/-- The three original filenames of the phase-2 failure scenario. -/
def origNames3 : List String := ["a.png", "b.jpg", "c.gif"]

/-- The phase-2 failure scenario: a run on three files in which every
phase-1 rename succeeds and the 2nd of the 3 phase-2 renames raises. -/
def scenario3 : RunOut :=
  run origNames3 ("image_") (fun i => natStr i)
    (fun _ => none) (fun i => if i = 2 then some ("boom") else none)
    origNames3

end Scramblr

namespace Scramblr

theorem charDigitVal_digitChar (n : Nat) (h : n < 10) :
    charDigitVal (digitChar n) = n := by
  interval_cases n <;> rfl

theorem digitChar_isDigit (n : Nat) : (digitChar n).isDigit = true := by
  unfold digitChar
  split <;> rfl

theorem natDigitsAux_foldl (fuel : Nat) :
    ∀ n a, n < fuel →
      (natDigitsAux fuel n).foldl (fun a c => a * 10 + charDigitVal c) a
        = a * 10 ^ (natDigitsAux fuel n).length + n := by
  induction fuel with
  | zero => intro n a h; omega
  | succ fuel ih =>
      intro n a h
      by_cases h10 : n < 10
      · simp only [natDigitsAux, if_pos h10, List.foldl_cons, List.foldl_nil,
          List.length_cons, List.length_nil, charDigitVal_digitChar n h10]
        rw [pow_one]
      · have hd : n / 10 < fuel := by
          have h2 := Nat.div_lt_self (show 0 < n by omega) (show 1 < 10 by omega)
          omega
        have hm : n % 10 < 10 := Nat.mod_lt n (by omega)
        simp only [natDigitsAux, if_neg h10]
        rw [List.foldl_append, ih (n / 10) a hd]
        simp only [List.foldl_cons, List.foldl_nil, List.length_append,
          List.length_cons, List.length_nil, Nat.zero_add,
          charDigitVal_digitChar (n % 10) hm]
        have hmod : 10 * (n / 10) + n % 10 = n := Nat.div_add_mod n 10
        calc (a * 10 ^ (natDigitsAux fuel (n / 10)).length + n / 10) * 10 + n % 10
            = a * (10 ^ (natDigitsAux fuel (n / 10)).length * 10)
              + (10 * (n / 10) + n % 10) := by ring
          _ = a * 10 ^ ((natDigitsAux fuel (n / 10)).length + 1) + n := by
              rw [hmod, pow_succ]

theorem digitsVal_natDigits (n : Nat) : digitsVal (natDigits n) = n := by
  unfold digitsVal natDigits
  rw [natDigitsAux_foldl (n + 1) n 0 (by omega)]
  simp

theorem natDigitsAux_isDigit (fuel : Nat) :
    ∀ n, ∀ c ∈ natDigitsAux fuel n, c.isDigit = true := by
  induction fuel with
  | zero => intro n c hc; simp [natDigitsAux] at hc
  | succ fuel ih =>
      intro n c hc
      by_cases h10 : n < 10
      · simp only [natDigitsAux, if_pos h10, List.mem_singleton] at hc
        subst hc
        exact digitChar_isDigit n
      · simp only [natDigitsAux, if_neg h10, List.mem_append,
          List.mem_singleton] at hc
        rcases hc with hc | hc
        · exact ih (n / 10) c hc
        · subst hc; exact digitChar_isDigit _

theorem pad3_isDigit (n : Nat) : ∀ c ∈ pad3 n, c.isDigit = true := by
  intro c hc
  unfold pad3 at hc
  rw [List.mem_append] at hc
  rcases hc with hc | hc
  · rw [List.eq_of_mem_replicate hc]
    rfl
  · exact natDigitsAux_isDigit (n + 1) n c hc

theorem foldl_zeros (k : Nat) :
    (List.replicate k '0').foldl (fun a c => a * 10 + charDigitVal c) 0 = 0 := by
  induction k with
  | zero => rfl
  | succ k ih =>
      rw [List.replicate_succ, List.foldl_cons,
        show (0 : Nat) * 10 + charDigitVal '0' = 0 from rfl]
      exact ih

theorem digitsVal_pad3 (n : Nat) : digitsVal (pad3 n) = n := by
  unfold digitsVal pad3
  rw [List.foldl_append, foldl_zeros]
  have h := natDigitsAux_foldl (n + 1) n 0 (by omega)
  simpa using h

theorem extData_shape (f : String) :
    extData f = [] ∨ ∃ t, extData f = '.' :: t := by
  unfold extData splitextData
  rcases hs : f.data.reverse.span (fun c => c != '.') with ⟨bRev, rest⟩
  cases rest with
  | nil => left; rfl
  | cons hd tl =>
      dsimp only
      by_cases ha : (tl.reverse.any (fun c => c != '.')) = true
      · rw [if_pos ha]
        right
        exact ⟨bRev.reverse, rfl⟩
      · rw [if_neg ha]
        left
        rfl

theorem takeWhile_digits (l e : List Char) (hl : ∀ c ∈ l, c.isDigit = true)
    (he : e = [] ∨ ∃ t, e = '.' :: t) :
    (l ++ e).takeWhile (fun c => c.isDigit) = l := by
  induction l with
  | nil =>
      rcases he with he | ⟨t, he⟩ <;> subst he
      · rfl
      · rfl
  | cons c l ih =>
      have hc : c.isDigit = true := hl c (by simp)
      simp only [List.cons_append, List.takeWhile_cons, hc, if_true]
      rw [ih (fun d hd => hl d (by simp [hd]))]

theorem decodeIdx_newNameOf (pre : String) (i : Nat) (f : String) :
    decodeIdx pre (newNameOf pre i f) = i := by
  unfold decodeIdx newNameOf
  rw [String.data_append, String.data_append]
  rw [show pre.length = pre.data.length from rfl]
  rw [List.append_assoc, List.drop_left]
  rw [show (pad3Str i).data = pad3 i from rfl,
    show (extStr f).data = extData f from rfl]
  rw [takeWhile_digits (pad3 i) (extData f) (pad3_isDigit i) (extData_shape f)]
  exact digitsVal_pad3 i

theorem rhe_le (p q : Nat) (hq : 0 < q) : 2 * q * rhe p q ≤ 2 * p + q := by
  have hdm : q * (p / q) + p % q = p := Nat.div_add_mod p q
  have hr : p % q < q := Nat.mod_lt p hq
  unfold rhe
  by_cases h1 : 2 * (p % q) < q
  · rw [if_pos h1]
    have e1 : 2 * q * (p / q) = 2 * (q * (p / q)) := by ring
    rw [e1]
    omega
  · rw [if_neg h1]
    by_cases h2 : q < 2 * (p % q)
    · rw [if_pos h2]
      have e1 : 2 * q * (p / q + 1) = 2 * (q * (p / q)) + 2 * q := by ring
      rw [e1]
      omega
    · rw [if_neg h2]
      by_cases h3 : (p / q) % 2 = 0
      · rw [if_pos h3]
        have e1 : 2 * q * (p / q) = 2 * (q * (p / q)) := by ring
        rw [e1]
        omega
      · rw [if_neg h3]
        have e1 : 2 * q * (p / q + 1) = 2 * (q * (p / q)) + 2 * q := by ring
        rw [e1]
        omega

theorem rhe_ge (p q : Nat) (hq : 0 < q) : 2 * p ≤ 2 * q * rhe p q + q := by
  have hdm : q * (p / q) + p % q = p := Nat.div_add_mod p q
  have hr : p % q < q := Nat.mod_lt p hq
  unfold rhe
  by_cases h1 : 2 * (p % q) < q
  · rw [if_pos h1]
    have e1 : 2 * q * (p / q) = 2 * (q * (p / q)) := by ring
    rw [e1]
    omega
  · rw [if_neg h1]
    by_cases h2 : q < 2 * (p % q)
    · rw [if_pos h2]
      have e1 : 2 * q * (p / q + 1) = 2 * (q * (p / q)) + 2 * q := by ring
      rw [e1]
      omega
    · rw [if_neg h2]
      by_cases h3 : (p / q) % 2 = 0
      · rw [if_pos h3]
        have e1 : 2 * q * (p / q) = 2 * (q * (p / q)) := by ring
        rw [e1]
        omega
      · rw [if_neg h3]
        have e1 : 2 * q * (p / q + 1) = 2 * (q * (p / q)) + 2 * q := by ring
        rw [e1]
        omega

theorem rhe_exact (p q : Nat) (hq : 0 < q) (hd : p % q = 0) : rhe p q = p / q := by
  unfold rhe
  rw [hd]
  simp [hq]

theorem rhe_floor_le (p q : Nat) : p / q ≤ rhe p q := by
  unfold rhe
  split
  · exact le_refl _
  · split
    · omega
    · split
      · exact le_refl _
      · omega

theorem rhe_mono_rat (p q p' q' : Nat) (hq : 0 < q) (hq' : 0 < q')
    (h : p * q' ≤ p' * q) : rhe p q ≤ rhe p' q' := by
  by_contra hcon
  push_neg at hcon
  have hle := rhe_le p q hq
  have hge := rhe_ge p' q' hq'
  have c1 : 2 * q * rhe p q * q' ≤ (2 * p + q) * q' :=
    Nat.mul_le_mul_right q' hle
  have c2 : (2 * p + q) * q' ≤ 2 * (p' * q) + q * q' := by
    have e : (2 * p + q) * q' = 2 * (p * q') + q * q' := by ring
    rw [e]
    omega
  have c3 : 2 * (p' * q) + q * q' ≤ (2 * q' * rhe p' q' + q') * q + q * q' := by
    have e : 2 * (p' * q) = 2 * p' * q := by ring
    rw [e]
    exact Nat.add_le_add_right (Nat.mul_le_mul_right q hge) _
  have key : 2 * (q * q') * rhe p q ≤ 2 * (q * q') * (rhe p' q' + 1) := by
    calc 2 * (q * q') * rhe p q = 2 * q * rhe p q * q' := by ring
      _ ≤ (2 * p + q) * q' := c1
      _ ≤ 2 * (p' * q) + q * q' := c2
      _ ≤ (2 * q' * rhe p' q' + q') * q + q * q' := c3
      _ = 2 * (q * q') * (rhe p' q' + 1) := by ring
  have hqq : 0 < 2 * (q * q') := by positivity
  have hR : rhe p q ≤ rhe p' q' + 1 := Nat.le_of_mul_le_mul_left key hqq
  have hReq : rhe p q = rhe p' q' + 1 := by omega
  -- all the inequalities in the chain are equalities
  have hAD : 2 * q * rhe p q * q' = (2 * q' * rhe p' q' + q') * q + q * q' := by
    calc 2 * q * rhe p q * q' = 2 * (q * q') * rhe p q := by ring
      _ = 2 * (q * q') * (rhe p' q' + 1) := by rw [hReq]
      _ = (2 * q' * rhe p' q' + q') * q + q * q' := by ring
  have hBA : (2 * p + q) * q' ≤ 2 * q * rhe p q * q' := by
    calc (2 * p + q) * q' ≤ 2 * (p' * q) + q * q' := c2
      _ ≤ (2 * q' * rhe p' q' + q') * q + q * q' := c3
      _ = 2 * q * rhe p q * q' := hAD.symm
  have hAB : 2 * q * rhe p q * q' = (2 * p + q) * q' := le_antisymm c1 hBA
  have hCB : 2 * (p' * q) + q * q' ≤ (2 * p + q) * q' := by
    calc 2 * (p' * q) + q * q' ≤ (2 * q' * rhe p' q' + q') * q + q * q' := c3
      _ = 2 * q * rhe p q * q' := hAD.symm
      _ ≤ (2 * p + q) * q' := c1
  have hBC : (2 * p + q) * q' = 2 * (p' * q) + q * q' := le_antisymm c2 hCB
  have hDC : (2 * q' * rhe p' q' + q') * q + q * q' ≤ 2 * (p' * q) + q * q' := by
    calc (2 * q' * rhe p' q' + q') * q + q * q' = 2 * q * rhe p q * q' := hAD.symm
      _ ≤ (2 * p + q) * q' := c1
      _ ≤ 2 * (p' * q) + q * q' := c2
  have hCD : 2 * (p' * q) + q * q' = (2 * q' * rhe p' q' + q') * q + q * q' :=
    le_antisymm c3 hDC
  -- equality E1 : 2*q*rhe p q = 2*p + q
  have hE1 : 2 * q * rhe p q = 2 * p + q := by
    have e := hAB
    calc 2 * q * rhe p q
        = 2 * q * rhe p q * q' / q' := by rw [Nat.mul_div_cancel _ hq']
      _ = (2 * p + q) * q' / q' := by rw [e]
      _ = 2 * p + q := by rw [Nat.mul_div_cancel _ hq']
  -- equality E2 : p * q' = p' * q
  have hE2 : p * q' = p' * q := by
    have e := hBC
    have e2 : (2 * p + q) * q' = 2 * (p * q') + q * q' := by ring
    rw [e2] at e
    omega
  -- equality E3 : 2 * p' = 2 * q' * rhe p' q' + q'
  have hE3 : 2 * p' = 2 * q' * rhe p' q' + q' := by
    have e := hCD
    have e1 : 2 * (p' * q) + q * q' = 2 * p' * q + q * q' := by ring
    have e2 : (2 * q' * rhe p' q' + q') * q + q * q'
        = (2 * q' * rhe p' q' + q') * q + q * q' := rfl
    rw [e1] at e
    have e3 : 2 * p' * q = (2 * q' * rhe p' q' + q') * q := by omega
    calc 2 * p' = 2 * p' * q / q := by rw [Nat.mul_div_cancel _ hq]
      _ = (2 * q' * rhe p' q' + q') * q / q := by rw [e3]
      _ = 2 * q' * rhe p' q' + q' := by rw [Nat.mul_div_cancel _ hq]
  -- from E1: upward tie at p/q, so p/q is odd
  have hdm : q * (p / q) + p % q = p := Nat.div_add_mod p q
  have hrr : p % q < q := Nat.mod_lt p hq
  obtain ⟨j, hj⟩ : ∃ j, rhe p q = p / q + j :=
    ⟨rhe p q - p / q, by have := rhe_floor_le p q; omega⟩
  have hE1' : 2 * (q * j) = 2 * (p % q) + q := by
    have e1 : 2 * q * (p / q + j) = 2 * (q * (p / q)) + 2 * (q * j) := by ring
    rw [hj, e1] at hE1
    omega
  have htie : j = 1 ∧ 2 * (p % q) = q := by
    match j with
    | 0 => rw [Nat.mul_zero] at hE1'; omega
    | 1 => rw [Nat.mul_one] at hE1'; omega
    | k + 2 =>
        have e : q * (k + 2) = q * k + 2 * q := by ring
        rw [e] at hE1'
        omega
  have hodd : (p / q) % 2 = 1 := by
    have hrq : rhe p q = p / q + 1 := by rw [hj, htie.1]
    unfold rhe at hrq
    rw [if_neg (by omega), if_neg (by omega)] at hrq
    by_cases he : (p / q) % 2 = 0
    · rw [if_pos he] at hrq; omega
    · omega
  -- from E3: downward tie at p'/q', so p'/q' is even
  have hdm' : q' * (p' / q') + p' % q' = p' := Nat.div_add_mod p' q'
  have hrr' : p' % q' < q' := Nat.mod_lt p' hq'
  obtain ⟨j', hj'⟩ : ∃ j', rhe p' q' = p' / q' + j' :=
    ⟨rhe p' q' - p' / q', by have := rhe_floor_le p' q'; omega⟩
  have hE3' : 2 * (p' % q') = 2 * (q' * j') + q' := by
    have e1 : 2 * q' * (p' / q' + j') = 2 * (q' * (p' / q')) + 2 * (q' * j') := by
      ring
    rw [hj', e1] at hE3
    omega
  have htie' : j' = 0 ∧ 2 * (p' % q') = q' := by
    match j' with
    | 0 => rw [Nat.mul_zero] at hE3'; omega
    | k + 1 =>
        have e : q' * (k + 1) = q' * k + q' := by ring
        rw [e] at hE3'
        omega
  have heven : (p' / q') % 2 = 0 := by
    have hrq' : rhe p' q' = p' / q' := by rw [hj', htie'.1]; omega
    unfold rhe at hrq'
    rw [if_neg (by omega), if_neg (by omega)] at hrq'
    by_cases he : (p' / q') % 2 = 0
    · exact he
    · rw [if_neg he] at hrq'; omega
  -- equal rationals have equal integer parts
  have hdd : p / q = p' / q' := by
    have h1 : p * q' / (q * q') = p / q := Nat.mul_div_mul_right p q hq'
    have h2 : p' * q / (q' * q) = p' / q' := Nat.mul_div_mul_right p' q' hq
    rw [← h1, ← h2, hE2, Nat.mul_comm q q']
  omega

theorem leastScaleAux_spec : ∀ fuel p t, 1 ≤ p → t ≤ p * 2 ^ fuel →
    t ≤ p * 2 ^ leastScaleAux fuel p t ∧
      ∀ w < leastScaleAux fuel p t, p * 2 ^ w < t := by
  intro fuel
  induction fuel with
  | zero =>
      intro p t hp h
      rw [pow_zero, Nat.mul_one] at h
      simp only [leastScaleAux]
      exact ⟨by simpa using h, by omega⟩
  | succ fuel ih =>
      intro p t hp h
      simp only [leastScaleAux]
      by_cases hc : t ≤ p
      · rw [if_pos hc]
        exact ⟨by simpa using hc, by omega⟩
      · rw [if_neg hc]
        have h2 : t ≤ 2 * p * 2 ^ fuel := by
          have e : p * 2 ^ (fuel + 1) = 2 * p * 2 ^ fuel := by ring
          rw [e] at h
          exact h
        have hrec := ih (2 * p) t (by omega) h2
        constructor
        · have e : p * 2 ^ (leastScaleAux fuel (2 * p) t + 1)
              = 2 * p * 2 ^ leastScaleAux fuel (2 * p) t := by ring
          rw [e]
          exact hrec.1
        · intro w hw
          cases w with
          | zero =>
              rw [pow_zero, Nat.mul_one]
              omega
          | succ w =>
              have hw2 : w < leastScaleAux fuel (2 * p) t := by omega
              have h3 := hrec.2 w hw2
              calc p * 2 ^ (w + 1) = 2 * p * 2 ^ w := by ring
                _ < t := h3

theorem leastScale_spec (p t : Nat) (hp : 1 ≤ p) :
    t ≤ p * 2 ^ leastScale p t ∧ ∀ w < leastScale p t, p * 2 ^ w < t := by
  apply leastScaleAux_spec t p t hp
  calc t ≤ 2 ^ t := Nat.le_of_lt (Nat.lt_two_pow t)
    _ = 1 * 2 ^ t := (Nat.one_mul _).symm
    _ ≤ p * 2 ^ t := Nat.mul_le_mul_right _ hp

theorem leastScale_eq (p t u : Nat) (hp : 1 ≤ p) (hcond : t ≤ p * 2 ^ u)
    (hmin : ∀ w < u, p * 2 ^ w < t) : leastScale p t = u := by
  have hs := leastScale_spec p t hp
  rcases Nat.lt_trichotomy (leastScale p t) u with hlt | he | hgt
  · have := hmin _ hlt
    omega
  · exact he
  · have := hs.2 u hgt
    omega

theorem fScale_spec (p q : Nat) (hp : 1 ≤ p) :
    q * 2 ^ 52 ≤ p * 2 ^ fScale p q ∧
      ∀ w < fScale p q, p * 2 ^ w < q * 2 ^ 52 :=
  leastScale_spec p (q * 2 ^ 52) hp

theorem fSig_lower (p q : Nat) (hp : 1 ≤ p) (hq : 1 ≤ q) :
    2 ^ 52 ≤ fSig p q := by
  have hs := (fScale_spec p q hp).1
  have hfl : 2 ^ 52 ≤ p * 2 ^ fScale p q / q := by
    rw [Nat.le_div_iff_mul_le (by omega)]
    calc 2 ^ 52 * q = q * 2 ^ 52 := by ring
      _ ≤ p * 2 ^ fScale p q := hs
  exact le_trans hfl (rhe_floor_le _ _)

theorem fSig_upper (p q : Nat) (hp : 1 ≤ p) (hq : 1 ≤ q)
    (hu : 1 ≤ fScale p q) : fSig p q ≤ 2 ^ 53 := by
  obtain ⟨k, hk⟩ : ∃ k, fScale p q = k + 1 := ⟨fScale p q - 1, by omega⟩
  have hmin := (fScale_spec p q hp).2 k (by omega)
  have hbin : p * 2 ^ fScale p q < q * 2 ^ 53 := by
    rw [hk, pow_succ]
    have e1 : p * (2 ^ k * 2) = 2 * (p * 2 ^ k) := by ring
    have e2 : q * 2 ^ 53 = 2 * (q * 2 ^ 52) := by
      rw [show (53 : Nat) = 52 + 1 from rfl, pow_succ]
      ring
    omega
  have hle := rhe_le (p * 2 ^ fScale p q) q (by omega)
  have h2 : q * (2 * fSig p q) ≤ q * (2 * 2 ^ 53 + 1) := by
    calc q * (2 * fSig p q) = 2 * q * fSig p q := by ring
      _ ≤ 2 * (p * 2 ^ fScale p q) + q := hle
      _ ≤ 2 * (q * 2 ^ 53) + q := by omega
      _ = q * (2 * 2 ^ 53 + 1) := by ring
  have h3 := Nat.le_of_mul_le_mul_left h2 (by omega)
  omega

theorem fSig_le_mul (p q c : Nat) (hq : 1 ≤ q) (hpc : p ≤ c * q) :
    fSig p q ≤ c * 2 ^ fScale p q := by
  have hle := rhe_le (p * 2 ^ fScale p q) q (by omega)
  have h1 : q * (2 * fSig p q) ≤ q * (2 * (c * 2 ^ fScale p q) + 1) := by
    calc q * (2 * fSig p q) = 2 * q * fSig p q := by ring
      _ ≤ 2 * (p * 2 ^ fScale p q) + q := hle
      _ ≤ 2 * (c * q * 2 ^ fScale p q) + q := by
          have h3 := Nat.mul_le_mul_right (2 ^ fScale p q) hpc
          have e : c * q * 2 ^ fScale p q = c * 2 ^ fScale p q * q := by ring
          omega
      _ = q * (2 * (c * 2 ^ fScale p q) + 1) := by ring
  have h2 := Nat.le_of_mul_le_mul_left h1 (by omega)
  omega

theorem fScale_anti (p q p' q' : Nat) (hp : 1 ≤ p) (hp' : 1 ≤ p')
    (hq : 1 ≤ q) (hq' : 1 ≤ q') (h : p * q' ≤ p' * q) :
    fScale p' q' ≤ fScale p q := by
  by_contra hcon
  push_neg at hcon
  have hs := (fScale_spec p q hp).1
  have hmin := (fScale_spec p' q' hp').2 (fScale p q) hcon
  have hchain : q * 2 ^ 52 * q' < q * 2 ^ 52 * q' := by
    calc q * 2 ^ 52 * q' ≤ p * 2 ^ fScale p q * q' :=
          Nat.mul_le_mul_right q' hs
      _ = p * q' * 2 ^ fScale p q := by ring
      _ ≤ p' * q * 2 ^ fScale p q := Nat.mul_le_mul_right _ h
      _ = p' * 2 ^ fScale p q * q := by ring
      _ < q' * 2 ^ 52 * q := (Nat.mul_lt_mul_right hq).mpr hmin
      _ = q * 2 ^ 52 * q' := by ring
  exact absurd hchain (lt_irrefl _)

theorem fval_mono (p q p' q' : Nat) (hp : 1 ≤ p) (hq : 1 ≤ q)
    (hp' : 1 ≤ p') (hq' : 1 ≤ q') (h : p * q' ≤ p' * q) :
    fSig p q * 2 ^ fScale p' q' ≤ fSig p' q' * 2 ^ fScale p q := by
  have hscale := fScale_anti p q p' q' hp hp' hq hq' h
  rcases Nat.eq_or_lt_of_le hscale with heq | hlt
  · rw [heq]
    apply Nat.mul_le_mul_right
    unfold fSig
    rw [heq]
    apply rhe_mono_rat _ _ _ _ (by omega) (by omega)
    calc p * 2 ^ fScale p q * q' = p * q' * 2 ^ fScale p q := by ring
      _ ≤ p' * q * 2 ^ fScale p q := Nat.mul_le_mul_right _ h
      _ = p' * 2 ^ fScale p q * q := by ring
  · have h53 : fSig p q ≤ 2 ^ 53 := fSig_upper p q hp hq (by omega)
    have h52 : 2 ^ 52 ≤ fSig p' q' := fSig_lower p' q' hp' hq'
    calc fSig p q * 2 ^ fScale p' q'
        ≤ 2 ^ 53 * 2 ^ fScale p' q' := Nat.mul_le_mul_right _ h53
      _ = 2 ^ 52 * 2 ^ (fScale p' q' + 1) := by rw [pow_succ]; ring
      _ ≤ 2 ^ 52 * 2 ^ fScale p q :=
          Nat.mul_le_mul_left _ (Nat.pow_le_pow_right (by omega) (by omega))
      _ ≤ fSig p' q' * 2 ^ fScale p q := Nat.mul_le_mul_right _ h52
  
theorem div_le_div_cross (m t m' t' : Nat) (h : m * 2 ^ t' ≤ m' * 2 ^ t) :
    m / 2 ^ t ≤ m' / 2 ^ t' := by
  rw [Nat.le_div_iff_mul_le (pow_pos (show (0:Nat) < 2 by omega) t')]
  have h1 : m / 2 ^ t * 2 ^ t' * 2 ^ t ≤ m' * 2 ^ t := by
    calc m / 2 ^ t * 2 ^ t' * 2 ^ t = m / 2 ^ t * 2 ^ t * 2 ^ t' := by ring
      _ ≤ m * 2 ^ t' := Nat.mul_le_mul_right _ (Nat.div_mul_le_self m _)
      _ ≤ m' * 2 ^ t := h
  exact Nat.le_of_mul_le_mul_right h1 (pow_pos (show (0:Nat) < 2 by omega) t)

theorem pyProgress_le_50 (a b : Nat) (hab : a ≤ b) : pyProgress a b ≤ 50 := by
  unfold pyProgress
  by_cases h0 : a = 0 ∨ b = 0
  · rw [if_pos h0]
    omega
  · rw [if_neg h0]
    push_neg at h0
    have ha : 1 ≤ a := by omega
    have hb : 1 ≤ b := by omega
    have hn : fSig a b ≤ 1 * 2 ^ fScale a b :=
      fSig_le_mul a b 1 hb (by omega)
    have hm : sSig a b ≤ 50 * 2 ^ sScale a b := by
      unfold sSig sScale
      refine fSig_le_mul _ _ 50 (pow_pos (show (0 : Nat) < 2 by norm_num) _) ?_
      calc 50 * fSig a b ≤ 50 * (1 * 2 ^ fScale a b) :=
            Nat.mul_le_mul_left 50 hn
        _ = 50 * 2 ^ fScale a b := by ring
    calc sSig a b / 2 ^ sScale a b
        ≤ 50 * 2 ^ sScale a b / 2 ^ sScale a b := Nat.div_le_div_right hm
      _ = 50 := Nat.mul_div_cancel _ (pow_pos (show (0 : Nat) < 2 by norm_num) _)

theorem pyProgress_mono_succ (a b : Nat) (hab : a + 1 ≤ b) :
    pyProgress a b ≤ pyProgress (a + 1) b := by
  by_cases h0 : a = 0
  · subst h0
    simp [pyProgress]
  · have ha : 1 ≤ a := by omega
    have hb : 1 ≤ b := by omega
    unfold pyProgress
    rw [if_neg (by omega), if_neg (by omega)]
    apply div_le_div_cross
    have hn1 : 1 ≤ fSig a b :=
      le_trans (by norm_num) (fSig_lower a b ha hb)
    have hn1' : 1 ≤ fSig (a + 1) b :=
      le_trans (by norm_num) (fSig_lower (a + 1) b (by omega) hb)
    unfold sSig sScale
    refine fval_mono _ _ _ _ ?_ (pow_pos (show (0 : Nat) < 2 by norm_num) _)
      ?_ (pow_pos (show (0 : Nat) < 2 by norm_num) _) ?_
    · omega
    · omega
    -- 50 n * 2^(u') ≤ 50 n' * 2^u  from step A
    have hA : fSig a b * 2 ^ fScale (a + 1) b
        ≤ fSig (a + 1) b * 2 ^ fScale a b :=
      fval_mono a b (a + 1) b ha hb (by omega) hb
        (Nat.mul_le_mul_right b (by omega))
    calc 50 * fSig a b * 2 ^ fScale (a + 1) b
        = 50 * (fSig a b * 2 ^ fScale (a + 1) b) := by ring
      _ ≤ 50 * (fSig (a + 1) b * 2 ^ fScale a b) := Nat.mul_le_mul_left 50 hA
      _ = 50 * fSig (a + 1) b * 2 ^ fScale a b := by ring

theorem pyProgress_self (b : Nat) (hb : 1 ≤ b) : pyProgress b b = 50 := by
  have hu : fScale b b = 52 := by
    apply leastScale_eq b (b * 2 ^ 52) 52 hb (le_refl _)
    intro w hw
    have hpow : 2 ^ w < 2 ^ 52 := Nat.pow_lt_pow_right (by omega) hw
    exact (Nat.mul_lt_mul_left (show 0 < b by omega)).mpr hpow
  have hn : fSig b b = 2 ^ 52 := by
    unfold fSig
    rw [hu, rhe_exact _ _ (by omega) (Nat.mul_mod_right b _)]
    exact Nat.mul_div_cancel_left _ (by omega)
  have ht : sScale b b = 47 := by
    unfold sScale
    rw [hn, hu]
    decide
  have hm : sSig b b = 50 * 2 ^ 47 := by
    unfold sSig
    rw [hn, hu]
    decide
  unfold pyProgress
  rw [if_neg (by omega), hm, ht]
  decide

theorem pyProgress_zero (b : Nat) : pyProgress 0 b = 0 := by
  simp [pyProgress]

theorem finalNamesOf_length (pre : String) :
    ∀ files i, (finalNamesOf pre i files).length = files.length := by
  intro files
  induction files with
  | nil => intro i; rfl
  | cons f rest ih => intro i; simp [finalNamesOf, ih (i + 1)]

theorem finalNamesOf_get? (pre : String) :
    ∀ files i k f, files.get? k = some f →
      (finalNamesOf pre i files).get? k = some (f, newNameOf pre (i + k) f) := by
  intro files
  induction files with
  | nil => intro i k f h; simp at h
  | cons g rest ih =>
      intro i k f h
      cases k with
      | zero =>
          simp only [List.get?] at h
          cases h
          simp [finalNamesOf]
      | succ k =>
          simp only [List.get?] at h
          have := ih (i + 1) k f h
          simp only [finalNamesOf, List.get?]
          rw [this]
          have harith : i + 1 + k = i + (k + 1) := by omega
          rw [harith]

theorem finalNamesOf_fst (pre : String) :
    ∀ files i, (finalNamesOf pre i files).map Prod.fst = files := by
  intro files
  induction files with
  | nil => intro i; rfl
  | cons f rest ih => intro i; simp [finalNamesOf, ih (i + 1)]

theorem finalNamesOf_decode (pre : String) :
    ∀ files i, (finalNamesOf pre i files).map (fun p => decodeIdx pre p.2)
      = List.range' i files.length := by
  intro files
  induction files with
  | nil => intro i; rfl
  | cons f rest ih =>
      intro i
      simp only [finalNamesOf, List.map_cons, List.length_cons,
        List.range'_succ, decodeIdx_newNameOf]
      rw [ih (i + 1)]

theorem finalNamesOf_snd_nodup (pre : String) (files : List String) (i : Nat) :
    ((finalNamesOf pre i files).map Prod.snd).Nodup := by
  have hmm : (((finalNamesOf pre i files).map Prod.snd).map (decodeIdx pre))
      = List.range' i files.length := by
    rw [List.map_map]
    exact finalNamesOf_decode pre files i
  have hr : (List.range' i files.length).Nodup := List.nodup_range' i files.length
  rw [← hmm] at hr
  exact hr.of_map _

theorem tempNamesFrom_fst (tokens : Nat → String) :
    ∀ files i, (tempNamesFrom tokens i files).map Prod.fst = files := by
  intro files
  induction files with
  | nil => intro i; rfl
  | cons f rest ih => intro i; simp [tempNamesFrom, ih (i + 1)]

theorem tempNamesFrom_length (tokens : Nat → String) :
    ∀ files i, (tempNamesFrom tokens i files).length = files.length := by
  intro files
  induction files with
  | nil => intro i; rfl
  | cons f rest ih => intro i; simp [tempNamesFrom, ih (i + 1)]

theorem finalNamesPairs_tempNamesFrom (pre : String) (tokens : Nat → String) :
    ∀ files i j, finalNamesPairs pre i (tempNamesFrom tokens j files)
      = finalNamesOf pre i files := by
  intro files
  induction files with
  | nil => intro i j; rfl
  | cons f rest ih =>
      intro i j
      simp only [tempNamesFrom, finalNamesPairs, finalNamesOf]
      rw [ih (i + 1) (j + 1)]

theorem phase1Go_ok (tokens : Nat → String) (fail1 : Nat → Option String)
    (total : Nat) :
    ∀ files i fs acc temps,
      (phase1Go tokens fail1 total files i fs acc).res = Except.ok temps →
      temps = acc ++ tempNamesFrom tokens i files := by
  intro files
  induction files with
  | nil =>
      intro i fs acc temps h
      simp only [phase1Go] at h
      cases h
      simp [tempNamesFrom]
  | cons f rest ih =>
      intro i fs acc temps h
      simp only [phase1Go] at h
      cases hf : fail1 i with
      | some msg => rw [hf] at h; simp at h
      | none =>
          rw [hf] at h
          by_cases hm : f ∈ fs
          · rw [if_pos hm] at h
            simp only at h
            have := ih (i + 1) _ _ temps h
            rw [this, List.concat_append]
            rfl
          · rw [if_neg hm] at h
            simp at h

theorem phase2Go_ok (fail2 : Nat → Option String) (total : Nat) (pre : String) :
    ∀ ts i fs acc finals,
      (phase2Go fail2 total pre ts i fs acc).res = Except.ok finals →
      finals = acc ++ finalNamesPairs pre i ts := by
  intro ts
  induction ts with
  | nil =>
      intro i fs acc finals h
      simp only [phase2Go] at h
      cases h
      simp [finalNamesPairs]
  | cons p rest ih =>
      intro i fs acc finals h
      rcases p with ⟨orig, tmp⟩
      simp only [phase2Go] at h
      cases hf : fail2 i with
      | some msg => rw [hf] at h; simp at h
      | none =>
          rw [hf] at h
          by_cases hm : tmp ∈ fs
          · rw [if_pos hm] at h
            simp only at h
            have := ih (i + 1) _ _ finals h
            rw [this, List.concat_append]
            rfl
          · rw [if_neg hm] at h
            simp at h

theorem run_ok_finals (files : List String) (pre : String)
    (tokens : Nat → String) (fail1 fail2 : Nat → Option String)
    (fs : List String) (finals : List (String × String))
    (h : (run files pre tokens fail1 fail2 fs).result = Except.ok finals) :
    finals = finalNamesOf pre 1 files := by
  unfold run at h
  simp only at h
  cases hp1 : (phase1Go tokens fail1 files.length files 0 fs []).res with
  | error m => rw [hp1] at h; simp at h
  | ok temps =>
      rw [hp1] at h
      simp only at h
      cases hp2 : (phase2Go fail2 files.length pre temps 1
          (phase1Go tokens fail1 files.length files 0 fs []).fs []).res with
      | error m => rw [hp2] at h; simp at h
      | ok finals2 =>
          rw [hp2] at h
          simp only at h
          cases h
          have h2 := phase2Go_ok fail2 files.length pre temps 1 _ [] _ hp2
          have h1 := phase1Go_ok tokens fail1 files.length files 0 fs [] temps hp1
          rw [h2, h1]
          simp only [List.nil_append]
          exact finalNamesPairs_tempNamesFrom pre tokens files 1 0

theorem run_eq_error1 (files : List String) (pre : String)
    (tokens : Nat → String) (fail1 fail2 : Nat → Option String)
    (fs : List String) (m : String)
    (h : (phase1Go tokens fail1 files.length files 0 fs []).res
      = Except.error m) :
    run files pre tokens fail1 fail2 fs =
      ⟨Event.progress 0 msgPhase1 ::
          ((phase1Go tokens fail1 files.length files 0 fs []).evs
            ++ [Event.error m]),
        (phase1Go tokens fail1 files.length files 0 fs []).fs,
        (phase1Go tokens fail1 files.length files 0 fs []).renames,
        Except.error m⟩ := by
  unfold run
  simp only
  rw [h]

theorem run_eq_error2 (files : List String) (pre : String)
    (tokens : Nat → String) (fail1 fail2 : Nat → Option String)
    (fs : List String) (temps : List (String × String)) (m : String)
    (h1 : (phase1Go tokens fail1 files.length files 0 fs []).res
      = Except.ok temps)
    (h2 : (phase2Go fail2 files.length pre temps 1
        (phase1Go tokens fail1 files.length files 0 fs []).fs []).res
      = Except.error m) :
    run files pre tokens fail1 fail2 fs =
      ⟨Event.progress 0 msgPhase1 ::
          ((phase1Go tokens fail1 files.length files 0 fs []).evs
            ++ Event.progress 50 msgPhase2 ::
              ((phase2Go fail2 files.length pre temps 1
                  (phase1Go tokens fail1 files.length files 0 fs []).fs []).evs
                ++ [Event.error m])),
        (phase2Go fail2 files.length pre temps 1
          (phase1Go tokens fail1 files.length files 0 fs []).fs []).fs,
        (phase1Go tokens fail1 files.length files 0 fs []).renames
          ++ (phase2Go fail2 files.length pre temps 1
            (phase1Go tokens fail1 files.length files 0 fs []).fs []).renames,
        Except.error m⟩ := by
  unfold run
  simp only
  rw [h1]
  simp only
  rw [h2]

theorem run_eq_ok (files : List String) (pre : String)
    (tokens : Nat → String) (fail1 fail2 : Nat → Option String)
    (fs : List String) (temps finals : List (String × String))
    (h1 : (phase1Go tokens fail1 files.length files 0 fs []).res
      = Except.ok temps)
    (h2 : (phase2Go fail2 files.length pre temps 1
        (phase1Go tokens fail1 files.length files 0 fs []).fs []).res
      = Except.ok finals) :
    run files pre tokens fail1 fail2 fs =
      ⟨Event.progress 0 msgPhase1 ::
          ((phase1Go tokens fail1 files.length files 0 fs []).evs
            ++ Event.progress 50 msgPhase2 ::
              ((phase2Go fail2 files.length pre temps 1
                  (phase1Go tokens fail1 files.length files 0 fs []).fs []).evs
                ++ [Event.finished finals])),
        (phase2Go fail2 files.length pre temps 1
          (phase1Go tokens fail1 files.length files 0 fs []).fs []).fs,
        (phase1Go tokens fail1 files.length files 0 fs []).renames
          ++ (phase2Go fail2 files.length pre temps 1
            (phase1Go tokens fail1 files.length files 0 fs []).fs []).renames,
        Except.ok finals⟩ := by
  unfold run
  simp only
  rw [h1]
  simp only
  rw [h2]

theorem phase1Go_evs_progress (tokens : Nat → String)
    (fail1 : Nat → Option String) (total : Nat) :
    ∀ files i fs acc, ∀ e ∈ (phase1Go tokens fail1 total files i fs acc).evs,
      isTerminal e = false := by
  intro files
  induction files with
  | nil => intro i fs acc e he; simp [phase1Go] at he
  | cons f rest ih =>
      intro i fs acc e he
      simp only [phase1Go] at he
      cases hf : fail1 i with
      | some msg => rw [hf] at he; simp at he
      | none =>
          rw [hf] at he
          by_cases hm : f ∈ fs
          · rw [if_pos hm] at he
            simp only [List.mem_cons] at he
            rcases he with he | he
            · subst he; rfl
            · exact ih (i + 1) _ _ e he
          · rw [if_neg hm] at he; simp at he

theorem phase2Go_evs_progress (fail2 : Nat → Option String) (total : Nat)
    (pre : String) :
    ∀ ts i fs acc, ∀ e ∈ (phase2Go fail2 total pre ts i fs acc).evs,
      isTerminal e = false := by
  intro ts
  induction ts with
  | nil => intro i fs acc e he; simp [phase2Go] at he
  | cons p rest ih =>
      intro i fs acc e he
      rcases p with ⟨orig, tmp⟩
      simp only [phase2Go] at he
      cases hf : fail2 i with
      | some msg => rw [hf] at he; simp at he
      | none =>
          rw [hf] at he
          by_cases hm : tmp ∈ fs
          · rw [if_pos hm] at he
            simp only [List.mem_cons] at he
            rcases he with he | he
            · subst he; rfl
            · exact ih (i + 1) _ _ e he
          · rw [if_neg hm] at he; simp at he

theorem phase1Go_fs (tokens : Nat → String) (fail1 : Nat → Option String)
    (total : Nat) :
    ∀ files i fs acc,
      (phase1Go tokens fail1 total files i fs acc).fs
        = applyRenames fs (phase1Go tokens fail1 total files i fs acc).renames := by
  intro files
  induction files with
  | nil => intro i fs acc; rfl
  | cons f rest ih =>
      intro i fs acc
      simp only [phase1Go]
      cases hf : fail1 i with
      | some msg => rfl
      | none =>
          dsimp only
          by_cases hm : f ∈ fs
          · rw [if_pos hm]
            exact ih (i + 1) _ _
          · rw [if_neg hm]
            rfl

theorem phase2Go_fs (fail2 : Nat → Option String) (total : Nat)
    (pre : String) :
    ∀ ts i fs acc,
      (phase2Go fail2 total pre ts i fs acc).fs
        = applyRenames fs (phase2Go fail2 total pre ts i fs acc).renames := by
  intro ts
  induction ts with
  | nil => intro i fs acc; rfl
  | cons p rest ih =>
      intro i fs acc
      rcases p with ⟨orig, tmp⟩
      simp only [phase2Go]
      cases hf : fail2 i with
      | some msg => rfl
      | none =>
          dsimp only
          by_cases hm : tmp ∈ fs
          · rw [if_pos hm]
            exact ih (i + 1) _ _
          · rw [if_neg hm]
            rfl

theorem phase1Go_renames_le (tokens : Nat → String)
    (fail1 : Nat → Option String) (total : Nat) :
    ∀ files i fs acc,
      (phase1Go tokens fail1 total files i fs acc).renames.length
        ≤ files.length := by
  intro files
  induction files with
  | nil => intro i fs acc; simp [phase1Go]
  | cons f rest ih =>
      intro i fs acc
      simp only [phase1Go]
      cases hf : fail1 i with
      | some msg => simp
      | none =>
          dsimp only
          by_cases hm : f ∈ fs
          · rw [if_pos hm]
            simp only [List.length_cons]
            have h := ih (i + 1) (renameFS fs f (tempNameOf (tokens i) f))
              (acc.concat (f, tempNameOf (tokens i) f))
            omega
          · rw [if_neg hm]
            simp

theorem phase1Go_renames_err (tokens : Nat → String)
    (fail1 : Nat → Option String) (total : Nat) :
    ∀ files i fs acc m,
      (phase1Go tokens fail1 total files i fs acc).res = Except.error m →
      (phase1Go tokens fail1 total files i fs acc).renames.length
        < files.length := by
  intro files
  induction files with
  | nil => intro i fs acc m h; simp [phase1Go] at h
  | cons f rest ih =>
      intro i fs acc m h
      simp only [phase1Go] at h ⊢
      cases hf : fail1 i with
      | some msg => rw [hf] at h; simp
      | none =>
          rw [hf] at h
          dsimp only at h ⊢
          by_cases hm : f ∈ fs
          · rw [if_pos hm] at h ⊢
            dsimp only at h ⊢
            simp only [List.length_cons]
            have hr := ih (i + 1) _ _ m h
            omega
          · rw [if_neg hm]
            simp

theorem phase1Go_renames_ok (tokens : Nat → String)
    (fail1 : Nat → Option String) (total : Nat) :
    ∀ files i fs acc temps,
      (phase1Go tokens fail1 total files i fs acc).res = Except.ok temps →
      (phase1Go tokens fail1 total files i fs acc).renames.length
        = files.length := by
  intro files
  induction files with
  | nil => intro i fs acc temps h; simp [phase1Go]
  | cons f rest ih =>
      intro i fs acc temps h
      simp only [phase1Go] at h ⊢
      cases hf : fail1 i with
      | some msg => rw [hf] at h; simp at h
      | none =>
          rw [hf] at h
          dsimp only at h ⊢
          by_cases hm : f ∈ fs
          · rw [if_pos hm] at h ⊢
            dsimp only at h ⊢
            simp only [List.length_cons]
            have hr := ih (i + 1) _ _ temps h
            omega
          · rw [if_neg hm] at h
            simp at h

theorem phase2Go_renames_err (fail2 : Nat → Option String) (total : Nat)
    (pre : String) :
    ∀ ts i fs acc m,
      (phase2Go fail2 total pre ts i fs acc).res = Except.error m →
      (phase2Go fail2 total pre ts i fs acc).renames.length < ts.length := by
  intro ts
  induction ts with
  | nil => intro i fs acc m h; simp [phase2Go] at h
  | cons p rest ih =>
      intro i fs acc m h
      rcases p with ⟨orig, tmp⟩
      simp only [phase2Go] at h ⊢
      cases hf : fail2 i with
      | some msg => rw [hf] at h; simp
      | none =>
          rw [hf] at h
          dsimp only at h ⊢
          by_cases hm : tmp ∈ fs
          · rw [if_pos hm] at h ⊢
            dsimp only at h ⊢
            simp only [List.length_cons]
            have hr := ih (i + 1) _ _ m h
            omega
          · rw [if_neg hm]
            simp

theorem chainGE_mono : ∀ (l : List Nat) (b b' : Nat), b' ≤ b →
    chainGE b l → chainGE b' l := by
  intro l
  cases l with
  | nil => intro b b' h hc; trivial
  | cons v rest => intro b b' h hc; exact ⟨le_trans h hc.1, hc.2⟩

theorem chainGE_chain : ∀ (l : List Nat) (b : Nat), chainGE b l →
    List.Chain' (fun a c => a ≤ c) l := by
  intro l
  induction l with
  | nil => intro b h; exact List.chain'_nil
  | cons v rest ih =>
      intro b h
      rw [List.chain'_cons']
      refine ⟨?_, ih v h.2⟩
      intro y hy
      cases rest with
      | nil => simp at hy
      | cons w ws =>
          simp only [List.head?_cons, Option.mem_def, Option.some.injEq] at hy
          subst hy
          exact h.2.1

theorem chainGE_le : ∀ (l : List Nat) (b : Nat), chainGE b l →
    ∀ v ∈ l, b ≤ v := by
  intro l
  induction l with
  | nil => intro b h v hv; simp at hv
  | cons w rest ih =>
      intro b h v hv
      rcases List.mem_cons.mp hv with rfl | hv
      · exact h.1
      · exact le_trans h.1 (ih w h.2 v hv)

theorem chainGE_append : ∀ (l1 : List Nat) (b c : Nat) (l2 : List Nat),
    chainGE b l1 → chainGE c l2 → (∀ v ∈ l1, v ≤ c) → b ≤ c →
    chainGE b (l1 ++ l2) := by
  intro l1
  induction l1 with
  | nil => intro b c l2 h1 h2 hle hbc; exact chainGE_mono l2 c b hbc h2
  | cons v rest ih =>
      intro b c l2 h1 h2 hle hbc
      refine ⟨h1.1, ?_⟩
      exact ih v c l2 h1.2 h2
        (fun w hw => hle w (List.mem_cons_of_mem v hw))
        (hle v (List.mem_cons_self v rest))

theorem phase1Go_vals_chain (tokens : Nat → String)
    (fail1 : Nat → Option String) (total : Nat) :
    ∀ files i fs acc, i + files.length ≤ total →
      chainGE (pyProgress i total)
        (progressVals (phase1Go tokens fail1 total files i fs acc).evs) := by
  intro files
  induction files with
  | nil => intro i fs acc hinv; trivial
  | cons f rest ih =>
      intro i fs acc hinv
      simp only [List.length_cons] at hinv
      simp only [phase1Go]
      cases hf : fail1 i with
      | some msg => trivial
      | none =>
          dsimp only
          by_cases hm : f ∈ fs
          · rw [if_pos hm]
            simp only [progressVals, List.filterMap_cons]
            exact ⟨pyProgress_mono_succ i total (by omega),
              ih (i + 1) _ _ (by omega)⟩
          · rw [if_neg hm]
            trivial

theorem phase1Go_vals_le (tokens : Nat → String)
    (fail1 : Nat → Option String) (total : Nat) :
    ∀ files i fs acc, i + files.length ≤ total →
      ∀ v ∈ progressVals (phase1Go tokens fail1 total files i fs acc).evs,
        v ≤ 50 := by
  intro files
  induction files with
  | nil => intro i fs acc hinv v hv; simp [phase1Go, progressVals] at hv
  | cons f rest ih =>
      intro i fs acc hinv v hv
      simp only [List.length_cons] at hinv
      simp only [phase1Go] at hv
      cases hf : fail1 i with
      | some msg => rw [hf] at hv; simp [progressVals] at hv
      | none =>
          rw [hf] at hv
          dsimp only at hv
          by_cases hm : f ∈ fs
          · rw [if_pos hm] at hv
            simp only [progressVals, List.filterMap_cons, List.mem_cons] at hv
            rcases hv with rfl | hv
            · exact pyProgress_le_50 (i + 1) total (by omega)
            · exact ih (i + 1) _ _ (by omega) v hv
          · rw [if_neg hm] at hv
            simp [progressVals] at hv

theorem phase2Go_vals_chain (fail2 : Nat → Option String) (total : Nat)
    (pre : String) :
    ∀ ts i fs acc, i + ts.length ≤ total + 1 →
      chainGE (50 + pyProgress i total)
        (progressVals (phase2Go fail2 total pre ts i fs acc).evs) := by
  intro ts
  induction ts with
  | nil => intro i fs acc hinv; trivial
  | cons pr rest ih =>
      intro i fs acc hinv
      rcases pr with ⟨orig, tmp⟩
      simp only [List.length_cons] at hinv
      simp only [phase2Go]
      cases hf : fail2 i with
      | some msg => trivial
      | none =>
          dsimp only
          by_cases hm : tmp ∈ fs
          · rw [if_pos hm]
            simp only [progressVals, List.filterMap_cons]
            refine ⟨le_refl _, ?_⟩
            cases rest with
            | nil => exact trivial
            | cons q qs =>
                simp only [List.length_cons] at hinv
                refine chainGE_mono _ (50 + pyProgress (i + 1) total) _ ?_
                  (ih (i + 1) _ _ (by simp only [List.length_cons]; omega))
                have hmono := pyProgress_mono_succ i total (by omega)
                omega
          · rw [if_neg hm]
            trivial

theorem phase2Go_vals_le (fail2 : Nat → Option String) (total : Nat)
    (pre : String) :
    ∀ ts i fs acc, i + ts.length ≤ total + 1 →
      ∀ v ∈ progressVals (phase2Go fail2 total pre ts i fs acc).evs,
        v ≤ 100 := by
  intro ts
  induction ts with
  | nil => intro i fs acc hinv v hv; simp [phase2Go, progressVals] at hv
  | cons pr rest ih =>
      intro i fs acc hinv v hv
      rcases pr with ⟨orig, tmp⟩
      simp only [List.length_cons] at hinv
      simp only [phase2Go] at hv
      cases hf : fail2 i with
      | some msg => rw [hf] at hv; simp [progressVals] at hv
      | none =>
          rw [hf] at hv
          dsimp only at hv
          by_cases hm : tmp ∈ fs
          · rw [if_pos hm] at hv
            simp only [progressVals, List.filterMap_cons, List.mem_cons] at hv
            rcases hv with rfl | hv
            · have hb := pyProgress_le_50 i total (by omega)
              omega
            · exact ih (i + 1) _ _ (by omega) v hv
          · rw [if_neg hm] at hv
            simp [progressVals] at hv

theorem phase2Go_vals_last (fail2 : Nat → Option String) (total : Nat)
    (pre : String) :
    ∀ ts i fs acc finals,
      (phase2Go fail2 total pre ts i fs acc).res = Except.ok finals →
      ts ≠ [] →
      (progressVals (phase2Go fail2 total pre ts i fs acc).evs).getLast?
        = some (50 + pyProgress (i + (ts.length - 1)) total) := by
  intro ts
  induction ts with
  | nil => intro i fs acc finals h hne; exact absurd rfl hne
  | cons pr rest ih =>
      intro i fs acc finals h hne
      rcases pr with ⟨orig, tmp⟩
      simp only [phase2Go] at h ⊢
      cases hf : fail2 i with
      | some msg => rw [hf] at h; simp at h
      | none =>
          rw [hf] at h
          dsimp only at h ⊢
          by_cases hm : tmp ∈ fs
          · rw [if_pos hm] at h ⊢
            dsimp only at h ⊢
            simp only [progressVals, List.filterMap_cons]
            cases rest with
            | nil =>
                simp [phase2Go]
            | cons q qs =>
                have hlast := ih (i + 1) _ _ finals h (by simp)
                simp only [progressVals] at hlast
                cases hv : List.filterMap (fun e =>
                    match e with
                    | Event.progress p _ => some p
                    | _ => none) (phase2Go fail2 total pre (q :: qs)
                    (i + 1) (renameFS fs tmp (newNameOf pre i orig))
                    (acc.concat (orig, newNameOf pre i orig))).evs with
                | nil => rw [hv] at hlast; simp at hlast
                | cons w ws =>
                    rw [hv] at hlast
                    rw [List.getLast?_cons_cons, hlast]
                    have harith : i + 1 + ((q :: qs).length - 1)
                        = i + (((orig, tmp) :: q :: qs).length - 1) := by
                      simp only [List.length_cons]
                      omega
                    rw [harith]
          · rw [if_neg hm] at h
            simp at h

theorem phase1Go_count0 (tokens : Nat → String)
    (fail1 : Nat → Option String) (total : Nat)
    (files : List String) (i : Nat) (fs : List String)
    (acc : List (String × String)) :
    (phase1Go tokens fail1 total files i fs acc).evs.countP isTerminal = 0 :=
  List.countP_eq_zero.mpr (fun e he => by
    rw [phase1Go_evs_progress tokens fail1 total files i fs acc e he]
    simp)

theorem phase2Go_count0 (fail2 : Nat → Option String) (total : Nat)
    (pre : String) (ts : List (String × String)) (i : Nat)
    (fs : List String) (acc : List (String × String)) :
    (phase2Go fail2 total pre ts i fs acc).evs.countP isTerminal = 0 :=
  List.countP_eq_zero.mpr (fun e he => by
    rw [phase2Go_evs_progress fail2 total pre ts i fs acc e he]
    simp)

theorem getLast_cons_concat (l : List Event) (a t : Event) :
    (a :: (l ++ [t])).getLast? = some t := by
  rw [show a :: (l ++ [t]) = (a :: l) ++ [t] from rfl]
  exact List.getLast?_concat _

theorem getLast_cons_concat2 (l1 l2 : List Event) (a b t : Event) :
    (a :: (l1 ++ b :: (l2 ++ [t]))).getLast? = some t := by
  rw [show a :: (l1 ++ b :: (l2 ++ [t])) = (a :: l1 ++ b :: l2) ++ [t] by simp]
  exact List.getLast?_concat _

theorem applyRenames_append (fs : List String)
    (r1 r2 : List (String × String)) :
    applyRenames fs (r1 ++ r2) = applyRenames (applyRenames fs r1) r2 := by
  unfold applyRenames
  rw [List.foldl_append]

theorem mul50_div_self_le (n : Nat) : n * 50 / n ≤ 50 := by
  cases n with
  | zero => simp
  | succ k => rw [Nat.mul_div_cancel_left 50 (Nat.succ_pos k)]

theorem run_vals_error1 (files : List String) (pre : String)
    (tokens : Nat → String) (fail1 fail2 : Nat → Option String)
    (fs : List String) (m : String)
    (hp1 : (phase1Go tokens fail1 files.length files 0 fs []).res
      = Except.error m) :
    progressVals (run files pre tokens fail1 fail2 fs).events
      = 0 :: progressVals
          (phase1Go tokens fail1 files.length files 0 fs []).evs := by
  rw [run_eq_error1 files pre tokens fail1 fail2 fs m hp1]
  simp [progressVals, List.filterMap_cons, List.filterMap_append]

theorem run_vals_ok1 (files : List String) (pre : String)
    (tokens : Nat → String) (fail1 fail2 : Nat → Option String)
    (fs : List String) (temps : List (String × String))
    (hp1 : (phase1Go tokens fail1 files.length files 0 fs []).res
      = Except.ok temps) :
    progressVals (run files pre tokens fail1 fail2 fs).events
      = 0 :: (progressVals (phase1Go tokens fail1 files.length files 0 fs []).evs
          ++ 50 :: progressVals (phase2Go fail2 files.length pre temps 1
            (phase1Go tokens fail1 files.length files 0 fs []).fs []).evs) := by
  cases hp2 : (phase2Go fail2 files.length pre temps 1
      (phase1Go tokens fail1 files.length files 0 fs []).fs []).res with
  | error m =>
      rw [run_eq_error2 files pre tokens fail1 fail2 fs temps m hp1 hp2]
      simp [progressVals, List.filterMap_cons, List.filterMap_append]
  | ok finals =>
      rw [run_eq_ok files pre tokens fail1 fail2 fs temps finals hp1 hp2]
      simp [progressVals, List.filterMap_cons, List.filterMap_append]

/-- C1: on every successful run of the worker on a non-empty
(post-shuffle) file list, the final mapping pairs the file processed at
0-based position `k` with `prefix + zero-padded (k + 1) + its original
extension`; the sequence numbers used are thus exactly 1..N, contiguous,
with no gaps or repeats. -/
theorem run_final_names (files : List String) (pre : String)
    (tokens : Nat → String) (fail1 fail2 : Nat → Option String)
    (fs : List String) (finals : List (String × String))
    (hne : files ≠ [])
    (hok : (run files pre tokens fail1 fail2 fs).result = Except.ok finals) :
    finals.length = files.length ∧
    ∀ k f, files.get? k = some f →
      finals.get? k = some (f, pre ++ pad3Str (k + 1) ++ extStr f) := by
  have hc := run_ok_finals files pre tokens fail1 fail2 fs finals hok
  subst hc
  constructor
  · exact finalNamesOf_length pre files 1
  · intro k f h
    have hk := finalNamesOf_get? pre files 1 k f h
    rw [show 1 + k = k + 1 from by omega] at hk
    exact hk

/-- Witness for `run_final_names` on a concrete two-file run. -/
theorem run_final_names_witness :
    ([("b.jpg", "x_001.jpg"), ("a.png", "x_002.png")]
        : List (String × String)).length
      = (["b.jpg", "a.png"] : List String).length ∧
    ∀ k f, (["b.jpg", "a.png"] : List String).get? k = some f →
      ([("b.jpg", "x_001.jpg"), ("a.png", "x_002.png")]
          : List (String × String)).get? k
        = some (f, ("x_") ++ pad3Str (k + 1) ++ extStr f) :=
  run_final_names ["b.jpg", "a.png"] ("x_") (fun _ => "t") (fun _ => none)
    (fun _ => none) ["a.png", "b.jpg"]
    [("b.jpg", "x_001.jpg"), ("a.png", "x_002.png")] (by decide) (by decide)

/-- C2: on every successful run whose input filenames are distinct, the
phase-1 temporary mapping and the final mapping are each keyed by exactly
the input files, each key appearing exactly once; the final mapping has
one entry per input file and its values contain no duplicate final
name. -/
theorem run_mapping_keys_values (files : List String) (pre : String)
    (tokens : Nat → String) (fail1 fail2 : Nat → Option String)
    (fs : List String) (finals : List (String × String))
    (hnd : files.Nodup)
    (hok : (run files pre tokens fail1 fail2 fs).result = Except.ok finals) :
    (∃ temps, (phase1Go tokens fail1 files.length files 0 fs []).res
        = Except.ok temps ∧ temps.map Prod.fst = files ∧
        ∀ f ∈ files, (temps.map Prod.fst).count f = 1) ∧
    finals.map Prod.fst = files ∧
    (∀ f ∈ files, (finals.map Prod.fst).count f = 1) ∧
    finals.length = files.length ∧
    (finals.map Prod.snd).Nodup := by
  have hfin := run_ok_finals files pre tokens fail1 fail2 fs finals hok
  cases hp1 : (phase1Go tokens fail1 files.length files 0 fs []).res with
  | error m =>
      rw [run_eq_error1 files pre tokens fail1 fail2 fs m hp1] at hok
      simp at hok
  | ok temps =>
      have htk : temps.map Prod.fst = files := by
        have h1 := phase1Go_ok tokens fail1 files.length files 0 fs [] temps hp1
        rw [h1, List.nil_append]
        exact tempNamesFrom_fst tokens files 0
      refine ⟨⟨temps, rfl, htk, ?_⟩, ?_, ?_, ?_, ?_⟩
      · intro f hf
        rw [htk]
        exact List.count_eq_one_of_mem hnd hf
      · rw [hfin]
        exact finalNamesOf_fst pre files 1
      · intro f hf
        rw [hfin, finalNamesOf_fst pre files 1]
        exact List.count_eq_one_of_mem hnd hf
      · rw [hfin]
        exact finalNamesOf_length pre files 1
      · rw [hfin]
        exact finalNamesOf_snd_nodup pre files 1

/-- Witness for `run_mapping_keys_values` on a concrete two-file run. -/
theorem run_mapping_keys_values_witness :
    (∃ temps, (phase1Go (fun _ => "t") (fun _ => none)
        (["a.png", "b.jpg"] : List String).length ["a.png", "b.jpg"] 0
        ["a.png", "b.jpg"] []).res
        = Except.ok temps ∧
        temps.map Prod.fst = ["a.png", "b.jpg"] ∧
        ∀ f ∈ (["a.png", "b.jpg"] : List String),
          (temps.map Prod.fst).count f = 1) ∧
    ([("a.png", "x_001.png"), ("b.jpg", "x_002.jpg")]
        : List (String × String)).map Prod.fst = ["a.png", "b.jpg"] ∧
    (∀ f ∈ (["a.png", "b.jpg"] : List String),
      (([("a.png", "x_001.png"), ("b.jpg", "x_002.jpg")]
          : List (String × String)).map Prod.fst).count f = 1) ∧
    ([("a.png", "x_001.png"), ("b.jpg", "x_002.jpg")]
        : List (String × String)).length
      = (["a.png", "b.jpg"] : List String).length ∧
    (([("a.png", "x_001.png"), ("b.jpg", "x_002.jpg")]
        : List (String × String)).map Prod.snd).Nodup :=
  run_mapping_keys_values ["a.png", "b.jpg"] ("x_") (fun _ => "t")
    (fun _ => none) (fun _ => none) ["a.png", "b.jpg"]
    [("a.png", "x_001.png"), ("b.jpg", "x_002.jpg")] (by decide) (by decide)

/-- C9: invoked on an empty file list the worker raises nothing — both
per-file loops are empty, so the division by the file count is never
evaluated — and it emits the two phase banners followed by a success
event carrying the empty mapping, leaving the directory untouched. -/
theorem run_empty_input (pre : String) (tokens : Nat → String)
    (fail1 fail2 : Nat → Option String) (fs : List String) :
    run [] pre tokens fail1 fail2 fs =
      ⟨[Event.progress 0 msgPhase1, Event.progress 50 msgPhase2,
          Event.finished []], fs, [], Except.ok []⟩ := rfl

/-- C10: the successful mapping depends only on the permuted file list
and the prefix — two successful runs with the same files and prefix but
different temporary-name token streams, failure oracles and starting
directory states produce identical results; no token appears in the
mapping. -/
theorem run_token_independence (files : List String) (pre : String)
    (tk1 tk2 : Nat → String) (fail1 fail2 fail1a fail2a : Nat → Option String)
    (fs fsa : List String) (r1 r2 : List (String × String))
    (h1 : (run files pre tk1 fail1 fail2 fs).result = Except.ok r1)
    (h2 : (run files pre tk2 fail1a fail2a fsa).result = Except.ok r2) :
    r1 = r2 := by
  rw [run_ok_finals files pre tk1 fail1 fail2 fs r1 h1,
    run_ok_finals files pre tk2 fail1a fail2a fsa r2 h2]

/-- Witness for `run_token_independence`: two runs with different token
streams and directories agree on the result. -/
theorem run_token_independence_witness :
    ([("a.png", "x_001.png"), ("b.jpg", "x_002.jpg")]
        : List (String × String))
      = [("a.png", "x_001.png"), ("b.jpg", "x_002.jpg")] :=
  run_token_independence ["a.png", "b.jpg"] ("x_") (fun _ => "t")
    (fun i => natStr i) (fun _ => none) (fun _ => none) (fun _ => none)
    (fun _ => none) ["a.png", "b.jpg"] ["b.jpg", "a.png", "c.txt"]
    [("a.png", "x_001.png"), ("b.jpg", "x_002.jpg")]
    [("a.png", "x_001.png"), ("b.jpg", "x_002.jpg")]
    (by decide) (by decide)

/-- C4: every invocation of `run` emits exactly one terminal event — a
`finished` event carrying the mapping on success or an `error` event
carrying the message on failure, never both and never neither — and the
terminal event is the last event emitted. -/
theorem run_single_terminal (files : List String) (pre : String)
    (tokens : Nat → String) (fail1 fail2 : Nat → Option String)
    (fs : List String) :
    (run files pre tokens fail1 fail2 fs).events.getLast?
      = some (terminalOf (run files pre tokens fail1 fail2 fs).result) ∧
    (run files pre tokens fail1 fail2 fs).events.countP isTerminal = 1 := by
  cases hp1 : (phase1Go tokens fail1 files.length files 0 fs []).res with
  | error m =>
      rw [run_eq_error1 files pre tokens fail1 fail2 fs m hp1]
      dsimp only
      constructor
      · rw [getLast_cons_concat]
        rfl
      · simp [List.countP_cons, List.countP_append, isTerminal,
          phase1Go_count0]
  | ok temps =>
      cases hp2 : (phase2Go fail2 files.length pre temps 1
          (phase1Go tokens fail1 files.length files 0 fs []).fs []).res with
      | error m =>
          rw [run_eq_error2 files pre tokens fail1 fail2 fs temps m hp1 hp2]
          dsimp only
          constructor
          · rw [getLast_cons_concat2]
            rfl
          · simp [List.countP_cons, List.countP_append, isTerminal,
              phase1Go_count0, phase2Go_count0]
      | ok finals =>
          rw [run_eq_ok files pre tokens fail1 fail2 fs temps finals hp1 hp2]
          dsimp only
          constructor
          · rw [getLast_cons_concat2]
            rfl
          · simp [List.countP_cons, List.countP_append, isTerminal,
              phase1Go_count0, phase2Go_count0]

/-- C5: if a rename raises, the exception is converted into a single
error event which is the last event emitted, no success event is emitted,
the run stops before performing the 2N renames of a complete run, and no
rollback happens: the final directory state is the initial one with
exactly the committed renames applied. -/
theorem run_failure_no_rollback (files : List String) (pre : String)
    (tokens : Nat → String) (fail1 fail2 : Nat → Option String)
    (fs : List String) (m : String)
    (h : (run files pre tokens fail1 fail2 fs).result = Except.error m) :
    (run files pre tokens fail1 fail2 fs).events.getLast?
      = some (Event.error m) ∧
    (∀ r, Event.finished r ∉ (run files pre tokens fail1 fail2 fs).events) ∧
    (run files pre tokens fail1 fail2 fs).fs
      = applyRenames fs (run files pre tokens fail1 fail2 fs).renames ∧
    (run files pre tokens fail1 fail2 fs).renames.length
      < 2 * files.length := by
  cases hp1 : (phase1Go tokens fail1 files.length files 0 fs []).res with
  | error m2 =>
      rw [run_eq_error1 files pre tokens fail1 fail2 fs m2 hp1] at h ⊢
      dsimp only at h ⊢
      injection h with hm
      subst hm
      refine ⟨getLast_cons_concat _ _ _, ?_, ?_, ?_⟩
      · intro r hr
        rcases List.mem_cons.mp hr with he | hr2
        · exact absurd he (by simp)
        · rcases List.mem_append.mp hr2 with hr3 | hr4
          · have hp := phase1Go_evs_progress tokens fail1 files.length
              files 0 fs [] _ hr3
            simp [isTerminal] at hp
          · simp at hr4
      · exact phase1Go_fs tokens fail1 files.length files 0 fs []
      · have hlt := phase1Go_renames_err tokens fail1 files.length
          files 0 fs [] m2 hp1
        omega
  | ok temps =>
      cases hp2 : (phase2Go fail2 files.length pre temps 1
          (phase1Go tokens fail1 files.length files 0 fs []).fs []).res with
      | ok finals =>
          rw [run_eq_ok files pre tokens fail1 fail2 fs temps finals
            hp1 hp2] at h
          dsimp only at h
          exact absurd h (by simp)
      | error m2 =>
          rw [run_eq_error2 files pre tokens fail1 fail2 fs temps m2
            hp1 hp2] at h ⊢
          dsimp only at h ⊢
          injection h with hm
          subst hm
          refine ⟨getLast_cons_concat2 _ _ _ _ _, ?_, ?_, ?_⟩
          · intro r hr
            rcases List.mem_cons.mp hr with he | hr2
            · exact absurd he (by simp)
            · rcases List.mem_append.mp hr2 with hr3 | hr4
              · have hp := phase1Go_evs_progress tokens fail1 files.length
                  files 0 fs [] _ hr3
                simp [isTerminal] at hp
              · rcases List.mem_cons.mp hr4 with he2 | hr5
                · exact absurd he2 (by simp)
                · rcases List.mem_append.mp hr5 with hr6 | hr7
                  · have hp := phase2Go_evs_progress fail2 files.length pre
                      temps 1 (phase1Go tokens fail1 files.length
                        files 0 fs []).fs [] _ hr6
                    simp [isTerminal] at hp
                  · simp at hr7
          · rw [applyRenames_append,
              ← phase1Go_fs tokens fail1 files.length files 0 fs []]
            exact phase2Go_fs fail2 files.length pre temps 1 _ []
          · have h1 := phase1Go_renames_ok tokens fail1 files.length
              files 0 fs [] temps hp1
            have h2 := phase2Go_renames_err fail2 files.length pre temps 1
              (phase1Go tokens fail1 files.length files 0 fs []).fs [] m2 hp2
            have h3 : temps.length = files.length := by
              have h4 := phase1Go_ok tokens fail1 files.length files 0
                fs [] temps hp1
              rw [h4, List.nil_append]
              exact tempNamesFrom_length tokens files 0
            rw [List.length_append]
            omega

/-- Witness for `run_failure_no_rollback` on a run whose second phase-1
rename raises. -/
theorem run_failure_no_rollback_witness :
    (run ["a.png", "b.jpg"] ("x_") (fun _ => "t")
        (fun i => if i = 1 then some ("boom") else none) (fun _ => none)
        ["a.png", "b.jpg"]).events.getLast?
      = some (Event.error ("boom")) ∧
    (∀ r, Event.finished r ∉ (run ["a.png", "b.jpg"] ("x_") (fun _ => "t")
        (fun i => if i = 1 then some ("boom") else none) (fun _ => none)
        ["a.png", "b.jpg"]).events) ∧
    (run ["a.png", "b.jpg"] ("x_") (fun _ => "t")
        (fun i => if i = 1 then some ("boom") else none) (fun _ => none)
        ["a.png", "b.jpg"]).fs
      = applyRenames ["a.png", "b.jpg"]
          (run ["a.png", "b.jpg"] ("x_") (fun _ => "t")
            (fun i => if i = 1 then some ("boom") else none) (fun _ => none)
            ["a.png", "b.jpg"]).renames ∧
    (run ["a.png", "b.jpg"] ("x_") (fun _ => "t")
        (fun i => if i = 1 then some ("boom") else none) (fun _ => none)
        ["a.png", "b.jpg"]).renames.length
      < 2 * (["a.png", "b.jpg"] : List String).length :=
  run_failure_no_rollback ["a.png", "b.jpg"] ("x_") (fun _ => "t")
    (fun i => if i = 1 then some ("boom") else none) (fun _ => none)
    ["a.png", "b.jpg"] ("boom") (by decide)

/-- C3: within any run on a non-empty file list the emitted progress
percentages are monotonically nondecreasing and every value is at most
100 (they are naturals, hence in 0..100); on a successful run the last
progress value emitted is exactly 100. -/
theorem run_progress_monotone (files : List String) (pre : String)
    (tokens : Nat → String) (fail1 fail2 : Nat → Option String)
    (fs : List String) (hne : files ≠ []) :
    List.Chain' (fun a b => a ≤ b)
      (progressVals (run files pre tokens fail1 fail2 fs).events) ∧
    (∀ v ∈ progressVals (run files pre tokens fail1 fail2 fs).events,
      v ≤ 100) ∧
    (∀ finals,
      (run files pre tokens fail1 fail2 fs).result = Except.ok finals →
      (progressVals (run files pre tokens fail1 fail2 fs).events).getLast?
        = some 100) := by
  have hN : 0 < files.length := List.length_pos.mpr hne
  cases hp1 : (phase1Go tokens fail1 files.length files 0 fs []).res with
  | error m =>
      rw [run_vals_error1 files pre tokens fail1 fail2 fs m hp1]
      have hch1 : chainGE 0
          (progressVals (phase1Go tokens fail1 files.length
            files 0 fs []).evs) := by
        have h := phase1Go_vals_chain tokens fail1 files.length
          files 0 fs [] (by omega)
        rw [pyProgress_zero] at h
        exact h
      have hle1 : ∀ v ∈ progressVals (phase1Go tokens fail1 files.length
          files 0 fs []).evs, v ≤ 50 :=
        phase1Go_vals_le tokens fail1 files.length files 0 fs [] (by omega)
      refine ⟨chainGE_chain _ 0 ⟨le_refl 0, hch1⟩, ?_, ?_⟩
      · intro v hv
        rcases List.mem_cons.mp hv with rfl | hv2
        · omega
        · have := hle1 v hv2
          omega
      · intro finals hok
        rw [run_eq_error1 files pre tokens fail1 fail2 fs m hp1] at hok
        dsimp only at hok
        exact absurd hok (by simp)
  | ok temps =>
      rw [run_vals_ok1 files pre tokens fail1 fail2 fs temps hp1]
      have htl : temps.length = files.length := by
        have h4 := phase1Go_ok tokens fail1 files.length files 0 fs [] temps hp1
        rw [h4, List.nil_append]
        exact tempNamesFrom_length tokens files 0
      have hch1 : chainGE 0
          (progressVals (phase1Go tokens fail1 files.length
            files 0 fs []).evs) := by
        have h := phase1Go_vals_chain tokens fail1 files.length
          files 0 fs [] (by omega)
        rw [pyProgress_zero] at h
        exact h
      have hle1 : ∀ v ∈ progressVals (phase1Go tokens fail1 files.length
          files 0 fs []).evs, v ≤ 50 :=
        phase1Go_vals_le tokens fail1 files.length files 0 fs [] (by omega)
      have hch2 : chainGE 50
          (progressVals (phase2Go fail2 files.length pre temps 1
            (phase1Go tokens fail1 files.length files 0 fs []).fs []).evs) := by
        have h := phase2Go_vals_chain fail2 files.length pre temps 1
          (phase1Go tokens fail1 files.length files 0 fs []).fs [] (by omega)
        exact chainGE_mono _ (50 + pyProgress 1 files.length) 50 (by omega) h
      have hle2 : ∀ v ∈ progressVals (phase2Go fail2 files.length pre temps 1
          (phase1Go tokens fail1 files.length files 0 fs []).fs []).evs,
          v ≤ 100 :=
        phase2Go_vals_le fail2 files.length pre temps 1
          (phase1Go tokens fail1 files.length files 0 fs []).fs [] (by omega)
      have hall : chainGE 0
          (0 :: (progressVals (phase1Go tokens fail1 files.length
              files 0 fs []).evs
            ++ 50 :: progressVals (phase2Go fail2 files.length pre temps 1
              (phase1Go tokens fail1 files.length files 0 fs []).fs []).evs)) := by
        refine ⟨le_refl 0, ?_⟩
        exact chainGE_append _ 0 50 _ hch1 ⟨le_refl 50, hch2⟩ hle1 (by omega)
      refine ⟨chainGE_chain _ 0 hall, ?_, ?_⟩
      · intro v hv
        rcases List.mem_cons.mp hv with rfl | hv2
        · omega
        · rcases List.mem_append.mp hv2 with h3 | h4
          · have := hle1 v h3
            omega
          · rcases List.mem_cons.mp h4 with rfl | h5
            · omega
            · exact hle2 v h5
      · intro finals hok
        cases hp2 : (phase2Go fail2 files.length pre temps 1
            (phase1Go tokens fail1 files.length files 0 fs []).fs []).res with
        | error m2 =>
            rw [run_eq_error2 files pre tokens fail1 fail2 fs temps m2
              hp1 hp2] at hok
            dsimp only at hok
            exact absurd hok (by simp)
        | ok finals2 =>
            have hne2 : temps ≠ [] := by
              intro hemp
              rw [hemp] at htl
              simp at htl
              omega
            have hlast := phase2Go_vals_last fail2 files.length pre temps 1
              (phase1Go tokens fail1 files.length files 0 fs []).fs []
              finals2 hp2 hne2
            have harith : 1 + (temps.length - 1) = files.length := by omega
            rw [harith, pyProgress_self files.length hN,
              show (50 : Nat) + 50 = 100 from rfl] at hlast
            rw [← List.cons_append, List.getLast?_append]
            cases hv2 : progressVals (phase2Go fail2 files.length pre temps 1
                (phase1Go tokens fail1 files.length files 0 fs []).fs []).evs with
            | nil => rw [hv2] at hlast; simp at hlast
            | cons w ws =>
                rw [hv2] at hlast
                rw [List.getLast?_cons_cons, hlast]
                rfl

/-- Witness for `run_progress_monotone` on a concrete two-file run. -/
theorem run_progress_monotone_witness :
    List.Chain' (fun a b => a ≤ b)
      (progressVals (run ["a.png", "b.jpg"] ("x_") (fun _ => "t")
        (fun _ => none) (fun _ => none) ["a.png", "b.jpg"]).events) ∧
    (∀ v ∈ progressVals (run ["a.png", "b.jpg"] ("x_") (fun _ => "t")
        (fun _ => none) (fun _ => none) ["a.png", "b.jpg"]).events,
      v ≤ 100) ∧
    (∀ finals,
      (run ["a.png", "b.jpg"] ("x_") (fun _ => "t")
        (fun _ => none) (fun _ => none) ["a.png", "b.jpg"]).result
        = Except.ok finals →
      (progressVals (run ["a.png", "b.jpg"] ("x_") (fun _ => "t")
        (fun _ => none) (fun _ => none) ["a.png", "b.jpg"]).events).getLast?
        = some 100) :=
  run_progress_monotone ["a.png", "b.jpg"] ("x_") (fun _ => "t")
    (fun _ => none) (fun _ => none) ["a.png", "b.jpg"] (by decide)

/-- C6 counterexample: in the 3-file run where every phase-1 rename
succeeds (the phase-1 mapping covers all three files) and the 2nd of the
3 phase-2 renames raises, the directory ends with two files under
temporary names and none under its original name — not the claimed one
temporary and one original. -/
theorem phase2_failure_counterexample :
    (phase1Go (fun i => natStr i) (fun _ => none) 3 origNames3 0
        origNames3 []).res
      = Except.ok [("a.png", "temp_0.png"), ("b.jpg", "temp_1.jpg"),
          ("c.gif", "temp_2.gif")] ∧
    scenario3.result = Except.error ("boom") ∧
    scenario3.fs.countP hasTempForm = 2 ∧
    scenario3.fs.countP (fun s => decide (s ∈ origNames3)) = 0 ∧
    ¬ (scenario3.fs.countP hasTempForm = 1 ∧
        scenario3.fs.countP (fun s => decide (s ∈ origNames3)) = 1) := by
  decide

/-- C6 amended: in that scenario exactly one file ends under its final
name, two remain under temporary names, and zero remain under their
original names; an error event is emitted as the single terminal and last
event, and no success event is emitted. -/
theorem phase2_failure_state :
    scenario3.fs = ["temp_1.jpg", "temp_2.gif", "image_001.png"] ∧
    scenario3.fs.countP (fun s => decide (s = "image_001.png")) = 1 ∧
    scenario3.fs.countP hasTempForm = 2 ∧
    scenario3.fs.countP (fun s => decide (s ∈ origNames3)) = 0 ∧
    scenario3.events.getLast? = some (Event.error ("boom")) ∧
    scenario3.events.countP isTerminal = 1 := by
  decide

/-- C7 counterexample: the blank, whitespace-only prefix " " is non-empty
and therefore truthy in Python, so `prefix_edit.text() or "image_"` keeps
it verbatim instead of substituting the default. -/
theorem blank_prefix_counterexample :
    ((" ").data.all (fun c => decide (c = ' ')) = true) ∧
    choosePre (" ") = (" ") ∧
    choosePre (" ") ≠ ("image_") := by
  decide

/-- C7 amended: only the empty prefix is replaced by the default
"image_"; every non-empty prefix — including whitespace-only ones — is
used verbatim. -/
theorem empty_prefix_default :
    choosePre ("") = ("image_") ∧ ∀ t : String, t ≠ "" → choosePre t = t := by
  refine ⟨rfl, ?_⟩
  intro t ht
  unfold choosePre pyOrDefault
  rw [if_neg ht]

/-- Witness for `empty_prefix_default` at the empty and a blank prefix. -/
theorem empty_prefix_default_witness :
    choosePre ("") = ("image_") ∧ choosePre (" ") = (" ") :=
  ⟨empty_prefix_default.1, empty_prefix_default.2 (" ") (by decide)⟩

/-- C8: `get_image_files` returns exactly the directory entries that are
regular files and whose lower-cased extension lies in the supported set;
no other entry is returned, and matching is case-insensitive through the
lower-casing. -/
theorem get_image_files_spec (entries : List String) (isFile : String → Bool)
    (f : String) :
    f ∈ get_image_files entries isFile ↔
      f ∈ entries ∧ isFile f = true ∧ extLower f ∈ imageExts := by
  unfold get_image_files
  rw [List.mem_filter]
  simp [Bool.and_eq_true, decide_eq_true_eq, and_assoc]

end Scramblr
